import Mathlib

/-!
Verification of the Course-Compass retrieval subsystem.

Part 1 embeds the structure-aware chunker of `backend/src/indexer.py`
(`chunk_text` and its inner helper `is_in_protected_region`) as executable
Lean functions over `List Char` (Python strings are modelled as character
lists, with ASCII semantics for `\d`, `.lower()` and whitespace).

Part 2 embeds the hybrid retriever of `backend/src/retriever.py`
(`_normalize_scores`, the keyword-boost policy, the text-keyed merge,
`hybrid_search`, `retrieve`, `bm25_search`).  Python floats are modelled
as rationals; the external search engines (ChromaDB, rank_bm25) are
modelled as oracle parameters supplying the raw result lists.
-/

namespace CourseCompass

/-- Whitespace characters recognised by Python's `str.strip` (ASCII range). -/
def pyIsSpace (c : Char) : Bool :=
  c = ' ' || c = '\t' || c = '\n' || c = '\x0d' || c = '\x0b' || c = '\x0c'

/-- Python slice `t[a:b]` on a character list (for `a ≤ b`; clips at the ends). -/
def pySlice (t : List Char) (a b : ℕ) : List Char :=
  (t.drop a).take (b - a)

/-- `True` iff `pat` occurs at offset `i` of `t` (used by the marker matchers). -/
def startsW : List Char → List Char → Bool
  | [], _ => true
  | _ :: _, [] => false
  | a :: as, b :: bs => a = b && startsW as bs

/-- Truthiness of `chunk.strip()` in Python: some character is not whitespace. -/
def stripNonempty (l : List Char) : Bool :=
  l.any (fun c => !(pyIsSpace c))

/-- Match of the regex `\[TABLE \d+\]` anchored at offset `i`: the literal
`"[TABLE "`, one or more digits, then `]`.  Returns the end offset. -/
def tableMatchAt (t : List Char) (i : ℕ) : Option ℕ :=
  if startsW "[TABLE ".data (t.drop i) then
    let ds := ((t.drop (i + 7)).takeWhile Char.isDigit).length
    if 0 < ds ∧ t.getD (i + 7 + ds) ' ' = ']' ∧ i + 7 + ds < t.length then
      some (i + 7 + ds + 1)
    else none
  else none

/-- Match of the regex `\[END TABLE\]` anchored at offset `i`. -/
def endTableMatchAt (t : List Char) (i : ℕ) : Option ℕ :=
  if startsW "[END TABLE]".data (t.drop i) then some (i + 11) else none

/-- Match of the regex `\[SLIDE \d+[^\]]*\]` anchored at offset `i`: the literal
`"[SLIDE "`, at least one digit, then any characters other than `]` up to the
first `]`.  Returns the end offset. -/
def slideMatchAt (t : List Char) (i : ℕ) : Option ℕ :=
  if startsW "[SLIDE ".data (t.drop i) && (t.getD (i + 7) ']').isDigit then
    let k := ((t.drop (i + 8)).takeWhile (fun c => c ≠ ']')).length
    if t.getD (i + 8 + k) ' ' = ']' ∧ i + 8 + k < t.length then
      some (i + 8 + k + 1)
    else none
  else none

/-- Fuel-driven scan implementing `re.finditer`: leftmost non-overlapping
matches, returned as `(start, end)` offset pairs in position order. -/
def finditerGo (m : List Char → ℕ → Option ℕ) (t : List Char) :
    ℕ → ℕ → List (ℕ × ℕ)
  | 0, _ => []
  | fuel + 1, i =>
    if i < t.length then
      match m t i with
      | some e => (i, e) :: finditerGo m t fuel e
      | none => finditerGo m t fuel (i + 1)
    else []

/-- `re.finditer(pattern, text)` as a list of `(start, end)` pairs. -/
def finditer (m : List Char → ℕ → Option ℕ) (t : List Char) : List (ℕ × ℕ) :=
  finditerGo m t (t.length + 1) 0

/-- `table_starts` of `chunk_text`: matches of `\[TABLE \d+\]`. -/
def tableStarts (t : List Char) : List (ℕ × ℕ) :=
  finditer tableMatchAt t

/-- `table_ends` of `chunk_text`: matches of `\[END TABLE\]`. -/
def tableEnds (t : List Char) : List (ℕ × ℕ) :=
  finditer endTableMatchAt t

/-- `table_ranges` of `chunk_text`: each opening marker is paired with the
first closing marker in scan order whose start lies strictly after the opening
marker's start; openers with no such closer yield no range. -/
def tableRanges (t : List Char) : List (ℕ × ℕ) :=
  (tableStarts t).filterMap fun p =>
    ((tableEnds t).find? fun q => p.1 < q.1).map fun q => (p.1, q.2)

/-- `slide_matches` of `chunk_text`: matches of `\[SLIDE \d+[^\]]*\]`. -/
def slideMatches (t : List Char) : List (ℕ × ℕ) :=
  finditer slideMatchAt t

/-- The recursion of `slide_ranges`: each slide runs from its marker's start to
the next marker's start, the last one to `len`. -/
def slideRangesGo (len : ℕ) : List (ℕ × ℕ) → List (ℕ × ℕ)
  | [] => []
  | [p] => [(p.1, len)]
  | p :: q :: rest => (p.1, q.1) :: slideRangesGo len (q :: rest)

/-- `slide_ranges` of `chunk_text`. -/
def slideRanges (t : List Char) : List (ℕ × ℕ) :=
  slideRangesGo t.length (slideMatches t)

/-- The `for` loop inside `is_in_protected_region`: first range containing
`pos`, scanned in list order. -/
def findRegionLoop (pos : ℕ) : List (ℕ × ℕ) → Option ℕ
  | [] => none
  | (a, b) :: rest => if a ≤ pos ∧ pos < b then some b else findRegionLoop pos rest

/-- `is_in_protected_region(pos)` of `chunk_text`: tables are checked before
slides; a hit returns `(True, region_end)`, a miss `(False, pos)`.  (The
unused `region_type` component of the Python tuple is omitted.) -/
def is_in_protected_region (tables slides : List (ℕ × ℕ)) (pos : ℕ) : Bool × ℕ :=
  match findRegionLoop pos tables with
  | some b => (true, b)
  | none =>
    match findRegionLoop pos slides with
    | some b => (true, b)
    | none => (false, pos)

/-- One emitted chunk: `(chunk_text, start_char, end_char)`. -/
abbrev PyChunk := List Char × ℕ × ℕ

/-- The `while start < len(text)` loop of `chunk_text`, fuel-driven.  Branch 1
emits a whole protected region when the cursor lies inside one; branch 2
proposes `[start, start+chunk_size)`, extending the end to
`min(region_end, start + chunk_size*2)` when the proposed end lies strictly
inside the text and inside a protected region; whitespace-only chunks are
dropped; the cursor then advances by `chunk_size - overlap`. -/
def chunkGo (t : List Char) (cs ov : ℕ) (tables slides : List (ℕ × ℕ)) :
    ℕ → ℕ → List PyChunk
  | 0, _ => []
  | fuel + 1, start =>
    if start < t.length then
      match is_in_protected_region tables slides start with
      | (true, rend) =>
        let c := pySlice t start rend
        let rest := chunkGo t cs ov tables slides fuel rend
        if stripNonempty c then (c, start, rend) :: rest else rest
      | (false, _) =>
        let e :=
          if start + cs < t.length then
            match is_in_protected_region tables slides (start + cs) with
            | (true, rend) => min rend (start + cs * 2)
            | (false, _) => start + cs
          else start + cs
        let c := pySlice t start e
        let rest := chunkGo t cs ov tables slides fuel (start + cs - ov)
        if stripNonempty c then (c, start, e) :: rest else rest
    else []

/-- The end offset that branch 2 of the loop computes for a cursor `s`. -/
def chunkEnd (t : List Char) (cs : ℕ) (tb sl : List (ℕ × ℕ)) (s : ℕ) : ℕ :=
  if s + cs < t.length then
    match is_in_protected_region tb sl (s + cs) with
    | (true, rend) => min rend (s + cs * 2)
    | (false, _) => s + cs
  else s + cs

/-- `chunk_text(text, chunk_size, overlap)` of `indexer.py`.  The fuel
`t.length + 1` is sufficient whenever `overlap < chunk_size`, since every
iteration strictly advances the cursor. -/
def chunk_text (t : List Char) (cs ov : ℕ) : List PyChunk :=
  chunkGo t cs ov (tableRanges t) (slideRanges t) (t.length + 1) 0

/-! ### Spec-side region definitions (for the boundary-detection claim)

These follow the specification's words, to be compared with the
source-translated `tableRanges`, `slideRanges` and `is_in_protected_region`. -/

/-- Element of `l` with the smallest first component, starting from `best`. -/
def minByFst : ℕ × ℕ → List (ℕ × ℕ) → ℕ × ℕ
  | best, [] => best
  | best, q :: rest => minByFst (if q.1 < best.1 then q else best) rest

/-- Modelled from the spec: a table region spans from an opening marker's
start to the nearest following closing marker's end; an opening marker with
no following closing marker yields no region. -/
def tableRangesSpec (t : List Char) : List (ℕ × ℕ) :=
  (tableStarts t).filterMap fun p =>
    match (tableEnds t).filter (fun q => p.1 < q.1) with
    | [] => none
    | h :: rest => some (p.1, (minByFst h rest).2)

/-- Modelled from the spec: a slide region spans from each opening marker's
start to the start of the next opening marker, or to end-of-text for the
last one. -/
def slideRangesSpec (t : List Char) : List (ℕ × ℕ) :=
  let starts := (slideMatches t).map Prod.fst
  starts.zip (starts.tail ++ [t.length])

/-- Modelled from the spec: the point query checks table regions first, then
slide regions, and on a hit returns the containing region's end offset. -/
def isProtectedSpec (tables slides : List (ℕ × ℕ)) (pos : ℕ) : Bool × ℕ :=
  match tables.find? (fun r => decide (r.1 ≤ pos ∧ pos < r.2)) with
  | some r => (true, r.2)
  | none =>
    match slides.find? (fun r => decide (r.1 ≤ pos ∧ pos < r.2)) with
    | some r => (true, r.2)
    | none => (false, pos)

/-- Pairwise disjointness of a list of half-open ranges. -/
abbrev RangesDisjoint (L : List (ℕ × ℕ)) : Prop :=
  L.Pairwise fun r s => r.2 ≤ s.1 ∨ s.2 ≤ r.1

/-! ### Hybrid retriever (`backend/src/retriever.py`)

Scores are rationals.  A raw search result carries its chunk text, an
opaque identifier standing for the Python result's metadata (irrelevant to
deduplication, which keys on text), and a raw score.  The external engines
(ChromaDB vector search, rank_bm25) are modelled as oracles supplying the
raw lists / raw score vector. -/

structure SearchResult where
  text : List Char
  meta : ℕ
  score : ℚ
deriving DecidableEq, Repr

/-- Python `max(scores)` (meaningful for non-empty input). -/
def pyMax : List ℚ → ℚ
  | [] => 0
  | h :: rest => rest.foldl max h

/-- Python `min(scores)`. -/
def pyMin : List ℚ → ℚ
  | [] => 0
  | h :: rest => rest.foldl min h

/-- `_normalize_scores` of `hybrid_search`, on the extracted score list:
empty input yields the empty dict; if all scores are equal or the maximum is
`0`, every score becomes the neutral `1/2`; otherwise min-max normalization. -/
def normalize_scores (scores : List ℚ) : List ℚ :=
  match scores with
  | [] => []
  | _ :: _ =>
    let mx := pyMax scores
    let mn := pyMin scores
    if mx = mn ∨ mx = 0 then scores.map fun _ => (1 : ℚ) / 2
    else scores.map fun s => (s - mn) / (mx - mn)

/-- Attaching `normalized_score` to each result (`r['normalized_score'] =
normalized.get(i, 0.0)`; for a non-empty list the dict is total, for an empty
list there is nothing to annotate). -/
def withNorm (rs : List SearchResult) : List (SearchResult × ℚ) :=
  rs.zip (normalize_scores (rs.map SearchResult.score))

/-- Python `str.lower()` (ASCII). -/
def pyLower (l : List Char) : List Char := l.map Char.toLower

/-- Python `str.strip()`. -/
def pyStrip (l : List Char) : List Char :=
  ((l.dropWhile pyIsSpace).reverse.dropWhile pyIsSpace).reverse

/-- Python substring containment `needle in hay`. -/
def containsSub (n : List Char) : List Char → Bool
  | [] => n.isEmpty
  | h :: rest => startsW n (h :: rest) || containsSub n rest

/-- The locator interrogatives of the boost policy. -/
def locatorStarts : List (List Char) :=
  ["where".data, "which module".data, "find".data]

/-- The materials query keywords of the boost policy. -/
def materialsKeywords : List (List Char) :=
  ["material".data, "book".data, "textbook".data, "required".data,
   "course pack".data]

/-- The materials-indicator terms looked for in result texts. -/
def indicatorTerms : List (List Char) :=
  ["table".data, "material".data, "book".data, "fundamentals".data,
   "course pack".data, "lab access".data]

/-- `query.strip().lower().startswith(("where", "which module", "find"))`. -/
def isLocatorQuery (q : List Char) : Bool :=
  locatorStarts.any fun p => startsW p (pyLower (pyStrip q))

/-- `any(keyword in query_lower for keyword in [...])`. -/
def isMaterialsQuery (q : List Char) : Bool :=
  materialsKeywords.any fun kw => containsSub kw (pyLower (pyStrip q))

/-- `any(term in result_text for term in [...])` on a result's lowered text. -/
def hasIndicator (text : List Char) : Bool :=
  indicatorTerms.any fun term => containsSub term (pyLower text)

/-- The three boost magnitudes of `hybrid_search`, kept as parameters so that
the run with all boosts zeroed can be compared with the real one. -/
structure BoostAmounts where
  locator : ℚ
  materials : ℚ
  perResult : ℚ

/-- The magnitudes hard-coded in the source: `0.15`, `0.20`, `0.25`. -/
def defaultBoosts : BoostAmounts := ⟨15 / 100, 20 / 100, 25 / 100⟩

/-- All boost magnitudes zeroed. -/
def zeroBoosts : BoostAmounts := ⟨0, 0, 0⟩

/-- The flat `keyword_boost` selected by the query classifier: locator queries
first, then materials queries, else `0`. -/
def keywordBoost (amts : BoostAmounts) (q : List Char) : ℚ :=
  if isLocatorQuery q then amts.locator
  else if isMaterialsQuery q then amts.materials
  else 0

/-- The per-result boost pass: only in the materials branch, each result whose
text contains an indicator term gets `min(1.0, normalized + 0.25)`. -/
def boostResults (amts : BoostAmounts) (q : List Char)
    (rs : List (SearchResult × ℚ)) : List (SearchResult × ℚ) :=
  if isLocatorQuery q then rs
  else if isMaterialsQuery q then
    rs.map fun p =>
      if hasIndicator p.1.text then (p.1, min 1 (p.2 + amts.perResult)) else p
  else rs

/-- `text in merged` on the ordered-dict model. -/
def containsKey (m : List (List Char × ℚ)) (k : List Char) : Bool :=
  m.any fun e => e.1 = k

/-- One step of the merge: either accumulate into the existing entry for the
key or append a fresh entry (Python dicts preserve insertion order). -/
def upsert (m : List (List Char × ℚ)) (k : List Char) (w : ℚ) :
    List (List Char × ℚ) :=
  if containsKey m k then m.map fun e => if e.1 = k then (e.1, e.2 + w) else e
  else m ++ [(k, w)]

/-- One of the two merge loops: fold a result list into the dict, adding
`normalized_score * weight` keyed by the result's text. -/
def mergeAdd (w : ℚ) (m : List (List Char × ℚ))
    (rs : List (SearchResult × ℚ)) : List (List Char × ℚ) :=
  rs.foldl (fun acc p => upsert acc p.1.text (p.2 * w)) m

/-- The full merge of `hybrid_search`: vector results at weight `0.6` first,
then BM25 results at weight `0.4`, deduplicated by chunk text. -/
def mergeResults (v b : List (SearchResult × ℚ)) : List (List Char × ℚ) :=
  mergeAdd (4 / 10) (mergeAdd (6 / 10) [] v) b

/-- `merged[key]['hybrid_score'] = max(0.0, min(1.0, score + keyword_boost))`. -/
def clampBoost (kb : ℚ) (m : List (List Char × ℚ)) : List (List Char × ℚ) :=
  m.map fun e => (e.1, max 0 (min 1 (e.2 + kb)))

/-- `final_results.sort(key=..., reverse=True)`: stable descending sort by
hybrid score. -/
def sortDesc (m : List (List Char × ℚ)) : List (List Char × ℚ) :=
  m.mergeSort fun a b => decide (b.2 ≤ a.2)

/-- The fusion pipeline of `hybrid_search` after the two raw searches, with
explicit boost magnitudes: normalize, boost, merge, flat-boost-and-clamp,
sort descending, truncate to `top_k`. -/
def hybrid_fuse (amts : BoostAmounts) (q : List Char)
    (vres bres : List SearchResult) (top_k : ℕ) : List (List Char × ℚ) :=
  let v := boostResults amts q (withNorm vres)
  let b := boostResults amts q (withNorm bres)
  (sortDesc (clampBoost (keywordBoost amts q) (mergeResults v b))).take top_k

/-- `hybrid_search` given the two raw result lists, at the source's boost
magnitudes. -/
def hybrid_search (q : List Char) (vres bres : List SearchResult)
    (top_k : ℕ) : List (List Char × ℚ) :=
  hybrid_fuse defaultBoosts q vres bres top_k

/-- Confidence of a fused result list: top hit's hybrid score clamped to
`[0,1]`, or `0.0` when empty. -/
def confidenceOf (res : List (List Char × ℚ)) : ℚ :=
  match res with
  | [] => 0
  | h :: _ => max 0 (min 1 h.2)

/-- `Retriever.retrieve(query, top_k)`: both searches are asked for
`top_k * 2` candidates, the fused list is truncated to `top_k`, and the
confidence is computed from the top hit. -/
def retrieve (q : List Char) (denseSearch lexSearch : ℕ → List SearchResult)
    (top_k : ℕ) : List (List Char × ℚ) × ℚ :=
  let results := hybrid_search q (denseSearch (top_k * 2)) (lexSearch (top_k * 2)) top_k
  (results, confidenceOf results)

/-- `np.argsort(scores)[::-1]`: indices sorted by ascending score (numpy's
quicksort leaves tie order unspecified; a stable sort is used here, and no
theorem below depends on tie order), then reversed. -/
def argsortDesc (scores : List ℚ) : List ℕ :=
  ((List.range scores.length).mergeSort fun i j =>
    decide (scores.getD i 0 ≤ scores.getD j 0)).reverse

/-- `Retriever.bm25_search` given the raw BM25 score vector (the rank_bm25
oracle) and the corpus texts: top `top_k` indices by score, keeping only
documents with strictly positive score. -/
def bm25_search (scores : List ℚ) (docs : List (List Char)) (top_k : ℕ) :
    List (List Char × ℚ) :=
  ((argsortDesc scores).take top_k).filterMap fun idx =>
    if 0 < scores.getD idx 0 then some (docs.getD idx [], scores.getD idx 0)
    else none

/-! ### Observation functions on the merge (verification-side) -/

/-- Number of entries of the merged dict carrying key `k`. -/
def keyCnt (m : List (List Char × ℚ)) (k : List Char) : ℕ :=
  (m.filter fun e => e.1 = k).length

/-- Sum of the hybrid scores of the entries carrying key `k` (the entry's
score when keys are unique, `0` when absent). -/
def keyVal (m : List (List Char × ℚ)) (k : List Char) : ℚ :=
  ((m.filter fun e => e.1 = k).map Prod.snd).sum

/-- Number of results of a raw list whose text is `k`. -/
def cntText (rs : List (SearchResult × ℚ)) (k : List Char) : ℕ :=
  (rs.filter fun p => p.1.text = k).length

/-- Sum of the normalized scores of the results whose text is `k`. -/
def sumNorm (rs : List (SearchResult × ℚ)) (k : List Char) : ℚ :=
  ((rs.filter fun p => p.1.text = k).map Prod.snd).sum

/-- The dict invariant: every key occurs at most once. -/
def MergeInv (m : List (List Char × ℚ)) : Prop :=
  ∀ k, keyCnt m k ≤ 1

/-- Pointwise comparison of merged entries: same key, score grows. -/
def EntryRel (e1 e2 : List Char × ℚ) : Prop := e1.1 = e2.1 ∧ e1.2 ≤ e2.2

/-- Pointwise comparison of annotated results: same result, score grows. -/
def ResRel (p q : SearchResult × ℚ) : Prop := p.1 = q.1 ∧ p.2 ≤ q.2

/-! ### Lemmas about the region lookup -/

theorem findRegionLoop_eq_none {pos : ℕ} {L : List (ℕ × ℕ)} :
    findRegionLoop pos L = none ↔ ∀ r ∈ L, ¬(r.1 ≤ pos ∧ pos < r.2) := by
  induction L with
  | nil => simp [findRegionLoop]
  | cons r rest ih =>
    obtain ⟨a, b⟩ := r
    by_cases h : a ≤ pos ∧ pos < b
    · simp [findRegionLoop, h]
    · simp only [findRegionLoop, if_neg h, ih, List.mem_cons]
      constructor
      · rintro hall r (rfl | hr)
        · exact h
        · exact hall r hr
      · intro hall r hr
        exact hall r (Or.inr hr)

theorem findRegionLoop_some {pos b : ℕ} {L : List (ℕ × ℕ)}
    (h : findRegionLoop pos L = some b) :
    ∃ a, (a, b) ∈ L ∧ a ≤ pos ∧ pos < b := by
  induction L with
  | nil => simp [findRegionLoop] at h
  | cons r rest ih =>
    obtain ⟨a', b'⟩ := r
    by_cases hc : a' ≤ pos ∧ pos < b'
    · simp only [findRegionLoop, if_pos hc, Option.some.injEq] at h
      subst h
      exact ⟨a', by simp, hc.1, hc.2⟩
    · simp only [findRegionLoop, if_neg hc] at h
      obtain ⟨a, hmem, hle, hlt⟩ := ih h
      exact ⟨a, List.mem_cons_of_mem _ hmem, hle, hlt⟩

theorem findRegionLoop_mem_disjoint {pos a b : ℕ} {L : List (ℕ × ℕ)}
    (hdisj : RangesDisjoint L) (hmem : (a, b) ∈ L) (h1 : a ≤ pos)
    (h2 : pos < b) : findRegionLoop pos L = some b := by
  induction L with
  | nil => simp at hmem
  | cons r rest ih =>
    obtain ⟨a', b'⟩ := r
    rcases List.mem_cons.mp hmem with heq | hmem'
    · obtain ⟨rfl, rfl⟩ := Prod.mk.injEq .. ▸ heq
      simp [findRegionLoop, h1, h2]
    · have hd := (List.pairwise_cons.mp hdisj).1 _ hmem'
      have hnot : ¬(a' ≤ pos ∧ pos < b') := by
        rintro ⟨hle, hlt⟩
        rcases hd with hor | hor <;> omega
      simp only [findRegionLoop, if_neg hnot]
      exact ih (List.pairwise_cons.mp hdisj).2 hmem'

theorem prot_some_mem {tb sl : List (ℕ × ℕ)} {pos b : ℕ}
    (h : is_in_protected_region tb sl pos = (true, b)) :
    ∃ a, (a, b) ∈ tb ++ sl ∧ a ≤ pos ∧ pos < b := by
  unfold is_in_protected_region at h
  rcases htb : findRegionLoop pos tb with _ | b'
  · rcases hsl : findRegionLoop pos sl with _ | b''
    · simp [htb, hsl] at h
    · simp only [htb, hsl, Prod.mk.injEq] at h
      obtain ⟨a, hmem, hle, hlt⟩ := findRegionLoop_some hsl
      exact ⟨a, List.mem_append_right _ (h.2 ▸ hmem), hle, h.2 ▸ hlt⟩
  · simp only [htb, Prod.mk.injEq] at h
    obtain ⟨a, hmem, hle, hlt⟩ := findRegionLoop_some htb
    exact ⟨a, List.mem_append_left _ (h.2 ▸ hmem), hle, h.2 ▸ hlt⟩

theorem prot_some_lt {tb sl : List (ℕ × ℕ)} {pos b : ℕ}
    (h : is_in_protected_region tb sl pos = (true, b)) : pos < b := by
  obtain ⟨a, _, _, hlt⟩ := prot_some_mem h
  exact hlt

theorem prot_false_not_mem {tb sl : List (ℕ × ℕ)} {pos : ℕ}
    (h : (is_in_protected_region tb sl pos).1 = false) :
    ∀ r ∈ tb ++ sl, ¬(r.1 ≤ pos ∧ pos < r.2) := by
  unfold is_in_protected_region at h
  rcases htb : findRegionLoop pos tb with _ | b'
  · rcases hsl : findRegionLoop pos sl with _ | b''
    · intro r hr
      rcases List.mem_append.mp hr with hmem | hmem
      · exact findRegionLoop_eq_none.mp htb r hmem
      · exact findRegionLoop_eq_none.mp hsl r hmem
    · simp [htb, hsl] at h
  · simp [htb] at h

theorem prot_of_mem_disjoint {tb sl : List (ℕ × ℕ)} {pos a b : ℕ}
    (hdisj : RangesDisjoint (tb ++ sl)) (hmem : (a, b) ∈ tb ++ sl)
    (h1 : a ≤ pos) (h2 : pos < b) :
    is_in_protected_region tb sl pos = (true, b) := by
  rcases List.pairwise_append.mp hdisj with ⟨hdt, hds, hcross⟩
  rcases List.mem_append.mp hmem with hm | hm
  · unfold is_in_protected_region
    rw [findRegionLoop_mem_disjoint hdt hm h1 h2]
  · have htb : findRegionLoop pos tb = none := by
      rw [findRegionLoop_eq_none]
      rintro ⟨a', b'⟩ hr ⟨hle, hlt⟩
      rcases hcross _ hr _ hm with hor | hor <;> simp at hor <;> omega
    unfold is_in_protected_region
    rw [htb, findRegionLoop_mem_disjoint hds hm h1 h2]

/-! ### The shape of every emitted chunk -/

theorem chunkGo_shape {t : List Char} {cs ov : ℕ} {tb sl : List (ℕ × ℕ)} :
    ∀ fuel s0 c, c ∈ chunkGo t cs ov tb sl fuel s0 →
      (c.1 = pySlice t c.2.1 c.2.2 ∧ c.2.1 < t.length) ∧
      (is_in_protected_region tb sl c.2.1 = (true, c.2.2) ∨
       ((is_in_protected_region tb sl c.2.1).1 = false ∧
        c.2.2 = chunkEnd t cs tb sl c.2.1)) := by
  intro fuel
  induction fuel with
  | zero => intro s0 c h; simp [chunkGo] at h
  | succ fuel ih =>
    intro s0 c h
    by_cases hlt : s0 < t.length
    · rcases hp : is_in_protected_region tb sl s0 with ⟨bb, rend⟩
      cases bb
      · simp only [chunkGo, if_pos hlt, hp] at h
        by_cases hs : stripNonempty (pySlice t s0 (chunkEnd t cs tb sl s0)) = true
        · rw [show (if s0 + cs < t.length then
              match is_in_protected_region tb sl (s0 + cs) with
              | (true, rend) => min rend (s0 + cs * 2)
              | (false, _) => s0 + cs
            else s0 + cs) = chunkEnd t cs tb sl s0 from rfl, if_pos hs,
            List.mem_cons] at h
          rcases h with rfl | h
          · exact ⟨⟨rfl, hlt⟩, Or.inr ⟨by simp [hp], rfl⟩⟩
          · exact ih _ _ h
        · rw [show (if s0 + cs < t.length then
              match is_in_protected_region tb sl (s0 + cs) with
              | (true, rend) => min rend (s0 + cs * 2)
              | (false, _) => s0 + cs
            else s0 + cs) = chunkEnd t cs tb sl s0 from rfl, if_neg hs] at h
          exact ih _ _ h
      · simp only [chunkGo, if_pos hlt, hp] at h
        by_cases hs : stripNonempty (pySlice t s0 rend) = true
        · simp only [if_pos hs, List.mem_cons] at h
          rcases h with rfl | h
          · exact ⟨⟨rfl, hlt⟩, Or.inl hp⟩
          · exact ih _ _ h
        · simp only [if_neg hs] at h
          exact ih _ _ h
    · simp [chunkGo, hlt] at h

/-! ### Bounds on the computed regions -/

theorem startsW_length {p l : List Char} (h : startsW p l = true) :
    p.length ≤ l.length := by
  induction p generalizing l with
  | nil => simp
  | cons a as ih =>
    cases l with
    | nil => simp [startsW] at h
    | cons b bs =>
      simp only [startsW, Bool.and_eq_true] at h
      simpa using ih h.2

theorem tableMatchAt_bounds {t : List Char} {i e : ℕ}
    (h : tableMatchAt t i = some e) : i < e ∧ e ≤ t.length := by
  simp only [tableMatchAt] at h
  split at h
  · split at h
    · rename_i hc
      simp only [Option.some.injEq] at h
      omega
    · simp at h
  · simp at h

theorem endTableMatchAt_bounds {t : List Char} {i e : ℕ}
    (h : endTableMatchAt t i = some e) : i < e ∧ e ≤ t.length := by
  unfold endTableMatchAt at h
  split at h
  · rename_i hs
    have h2 := startsW_length hs
    rw [List.length_drop] at h2
    have h11 : ("[END TABLE]".data).length = 11 := by decide
    simp only [Option.some.injEq] at h
    omega
  · simp at h

theorem slideMatchAt_bounds {t : List Char} {i e : ℕ}
    (h : slideMatchAt t i = some e) : i < e ∧ e ≤ t.length := by
  simp only [slideMatchAt] at h
  split at h
  · split at h
    · rename_i hc
      simp only [Option.some.injEq] at h
      omega
    · simp at h
  · simp at h

theorem finditerGo_mem {m : List Char → ℕ → Option ℕ} {t : List Char}
    (hm : ∀ i e, m t i = some e → i < e) :
    ∀ fuel i q, q ∈ finditerGo m t fuel i →
      i ≤ q.1 ∧ q.1 < t.length ∧ m t q.1 = some q.2 := by
  intro fuel
  induction fuel with
  | zero => intro i q h; simp [finditerGo] at h
  | succ fuel ih =>
    intro i q h
    by_cases hlt : i < t.length
    · rcases hmi : m t i with _ | e
      · simp only [finditerGo, if_pos hlt, hmi] at h
        obtain ⟨h1, h2, h3⟩ := ih _ _ h
        exact ⟨by omega, h2, h3⟩
      · simp only [finditerGo, if_pos hlt, hmi, List.mem_cons] at h
        rcases h with rfl | h
        · exact ⟨le_refl _, hlt, hmi⟩
        · obtain ⟨h1, h2, h3⟩ := ih _ _ h
          have := hm _ _ hmi
          exact ⟨by omega, h2, h3⟩
    · simp [finditerGo, hlt] at h

theorem finditerGo_pairwise {m : List Char → ℕ → Option ℕ} {t : List Char}
    (hm : ∀ i e, m t i = some e → i < e) :
    ∀ fuel i, (finditerGo m t fuel i).Pairwise fun a b => a.1 < b.1 := by
  intro fuel
  induction fuel with
  | zero => intro i; simp [finditerGo]
  | succ fuel ih =>
    intro i
    by_cases hlt : i < t.length
    · rcases hmi : m t i with _ | e
      · simp only [finditerGo, if_pos hlt, hmi]
        exact ih _
      · simp only [finditerGo, if_pos hlt, hmi]
        refine List.pairwise_cons.mpr ⟨?_, ih _⟩
        intro q hq
        have h1 := (finditerGo_mem hm _ _ _ hq).1
        have h2 := hm _ _ hmi
        omega
    · simp [finditerGo, hlt]

theorem tableRanges_le_len {t : List Char} :
    ∀ r ∈ tableRanges t, r.2 ≤ t.length := by
  intro r hr
  unfold tableRanges at hr
  obtain ⟨p, _, hp⟩ := List.mem_filterMap.mp hr
  obtain ⟨q, hq, hq2⟩ := Option.map_eq_some'.mp hp
  have hqm : q ∈ tableEnds t := List.mem_of_find?_eq_some hq
  have hb := (finditerGo_mem (fun i e h => (endTableMatchAt_bounds h).1)
    _ _ _ hqm).2.2
  have := (endTableMatchAt_bounds hb).2
  cases hq2
  simpa using this

theorem slideRangesGo_le_len {len : ℕ} :
    ∀ L : List (ℕ × ℕ), (∀ q ∈ L, q.1 ≤ len) →
      ∀ r ∈ slideRangesGo len L, r.2 ≤ len := by
  intro L
  induction L with
  | nil => intro _ r hr; simp [slideRangesGo] at hr
  | cons p rest ih =>
    intro hall r hr
    cases rest with
    | nil =>
      simp only [slideRangesGo, List.mem_singleton] at hr
      subst hr
      exact le_refl _
    | cons q rest' =>
      simp only [slideRangesGo, List.mem_cons] at hr
      rcases hr with rfl | hr
      · exact hall q (by simp)
      · exact ih (fun x hx => hall x (List.mem_cons_of_mem _ hx)) r hr

theorem slideRanges_le_len {t : List Char} :
    ∀ r ∈ slideRanges t, r.2 ≤ t.length := by
  intro r hr
  refine slideRangesGo_le_len _ ?_ r hr
  intro q hq
  exact le_of_lt (finditerGo_mem (fun i e h => (slideMatchAt_bounds h).1)
    _ _ _ hq).2.1

theorem allRanges_le_len {t : List Char} :
    ∀ r ∈ tableRanges t ++ slideRanges t, r.2 ≤ t.length := by
  intro r hr
  rcases List.mem_append.mp hr with h | h
  · exact tableRanges_le_len r h
  · exact slideRanges_le_len r h

theorem rangesDisjoint_symm :
    Symmetric fun r s : ℕ × ℕ => r.2 ≤ s.1 ∨ s.2 ≤ r.1 := by
  rintro r s (h | h)
  · exact Or.inr h
  · exact Or.inl h

theorem chunk_cases_of_shape {t : List Char} {cs : ℕ} {tb sl : List (ℕ × ℕ)}
    (hlen : ∀ r ∈ tb ++ sl, r.2 ≤ t.length)
    (hdisj : RangesDisjoint (tb ++ sl))
    {s e a b : ℕ} (hR : (a, b) ∈ tb ++ sl)
    (hshape : is_in_protected_region tb sl s = (true, e) ∨
      ((is_in_protected_region tb sl s).1 = false ∧ e = chunkEnd t cs tb sl s)) :
    (e ≤ a ∨ b ≤ s) ∨ (s ≤ a ∧ b ≤ e) ∨ (a < s ∧ s < b ∧ e = b) ∨
      (s < a ∧ a < e ∧ e = s + cs * 2 ∧ e < b) := by
  rcases hshape with hp | ⟨hfalse, he⟩
  · obtain ⟨a', hmem', hle', hlt'⟩ := prot_some_mem hp
    by_cases heq : (a', e) = (a, b)
    · obtain ⟨h1, h2⟩ := Prod.mk.injEq .. ▸ heq
      rcases Nat.lt_or_ge a s with hlt | hge
      · exact Or.inr (Or.inr (Or.inl ⟨hlt, by omega, by omega⟩))
      · exact Or.inr (Or.inl ⟨by omega, by omega⟩)
    · rcases hdisj.forall rangesDisjoint_symm hmem' hR heq with hd | hd <;>
        simp only at hd
      · exact Or.inl (Or.inl hd)
      · exact Or.inl (Or.inr (by omega))
  · have hnR := prot_false_not_mem hfalse (a, b) hR
    simp only [not_and, not_lt] at hnR
    by_cases hsb : b ≤ s
    · exact Or.inl (Or.inr hsb)
    · have hsa : s < a := by
        rcases Nat.lt_or_ge s a with h | h
        · exact h
        · exact absurd (hnR h) (by omega)
      rw [chunkEnd] at he
      by_cases hin : s + cs < t.length
      · rw [if_pos hin] at he
        rcases hpe : is_in_protected_region tb sl (s + cs) with ⟨bb, rend⟩
        cases bb
        · rw [hpe] at he
          have he' : e = s + cs := by rw [he]
          have hfalse2 : (is_in_protected_region tb sl (s + cs)).1 = false := by
            rw [hpe]
          have hn2 := prot_false_not_mem hfalse2 (a, b) hR
          simp only [not_and, not_lt] at hn2
          by_cases hea : e ≤ a
          · exact Or.inl (Or.inl hea)
          · refine Or.inr (Or.inl ⟨le_of_lt hsa, ?_⟩)
            have := hn2 (by omega)
            omega
        · rw [hpe] at he
          have he' : e = min rend (s + cs * 2) := by rw [he]
          obtain ⟨a0, hmem0, hle0, hlt0⟩ := prot_some_mem hpe
          by_cases hcap : rend ≤ s + cs * 2
          · have he2 : e = rend := by omega
            by_cases heq : (a0, rend) = (a, b)
            · obtain ⟨h1, h2⟩ := Prod.mk.injEq .. ▸ heq
              exact Or.inr (Or.inl ⟨le_of_lt hsa, by omega⟩)
            · rcases hdisj.forall rangesDisjoint_symm hmem0 hR heq with hd | hd <;>
                simp only at hd
              · exact Or.inl (Or.inl (by omega))
              · exact Or.inr (Or.inl ⟨le_of_lt hsa, by omega⟩)
          · have he2 : e = s + cs * 2 := by omega
            have hcs : 0 < cs := by
              rcases Nat.eq_zero_or_pos cs with rfl | h
              · exfalso
                have hzz : is_in_protected_region tb sl s = (true, rend) := by
                  simpa using hpe
                rw [hzz] at hfalse
                simp at hfalse
              · exact h
            by_cases heq : (a0, rend) = (a, b)
            · obtain ⟨h1, h2⟩ := Prod.mk.injEq .. ▸ heq
              exact Or.inr (Or.inr (Or.inr ⟨hsa, by omega, he2, by omega⟩))
            · rcases hdisj.forall rangesDisjoint_symm hmem0 hR heq with hd | hd <;>
                simp only at hd
              · exact Or.inl (Or.inl (by omega))
              · exact Or.inr (Or.inl ⟨le_of_lt hsa, by omega⟩)
      · rw [if_neg hin] at he
        have hb := hlen (a, b) hR
        exact Or.inr (Or.inl ⟨le_of_lt hsa, by omega⟩)

/-! ### Coverage of non-whitespace positions -/

theorem stripNonempty_of_pos {t : List Char} {s e p : ℕ}
    (hsp : s ≤ p) (hpe : p < e) (hpl : p < t.length)
    (hns : pyIsSpace (t.getD p ' ') = false) :
    stripNonempty (pySlice t s e) = true := by
  have hlen : p - s < (pySlice t s e).length := by
    simp only [pySlice, List.length_take, List.length_drop]
    omega
  have hd : p - s < (t.drop s).length := by
    simp only [List.length_drop]
    omega
  have hget : (pySlice t s e)[p - s] = t.get ⟨p, hpl⟩ := by
    simp only [pySlice] at hlen ⊢
    rw [List.getElem_take, List.getElem_drop]
    congr 1
    omega
  refine List.any_eq_true.mpr ⟨(pySlice t s e)[p - s], List.getElem_mem hlen, ?_⟩
  rw [hget]
  rw [List.getD_eq_getElem t ' ' hpl] at hns
  simp [hns]

theorem chunkGo_cover {t : List Char} {cs ov : ℕ} {tb sl : List (ℕ × ℕ)}
    (hov : ov < cs) :
    ∀ fuel s0, t.length - s0 ≤ fuel → ∀ p, s0 ≤ p → p < t.length →
      pyIsSpace (t.getD p ' ') = false →
      ∃ c ∈ chunkGo t cs ov tb sl fuel s0, c.2.1 ≤ p ∧ p < c.2.2 := by
  intro fuel
  induction fuel with
  | zero => intro s0 hf p h1 h2 _; omega
  | succ fuel ih =>
    intro s0 hf p h1 h2 hns
    have hlt : s0 < t.length := by omega
    rcases hp : is_in_protected_region tb sl s0 with ⟨bb, rend⟩
    cases bb
    · have he : (if s0 + cs < t.length then
          match is_in_protected_region tb sl (s0 + cs) with
          | (true, rend) => min rend (s0 + cs * 2)
          | (false, _) => s0 + cs
        else s0 + cs) = chunkEnd t cs tb sl s0 := rfl
      have hcse : s0 + cs ≤ chunkEnd t cs tb sl s0 := by
        rw [chunkEnd]
        by_cases hin : s0 + cs < t.length
        · rw [if_pos hin]
          rcases hq : is_in_protected_region tb sl (s0 + cs) with ⟨bb2, rend2⟩
          cases bb2
          · simp
          · have := prot_some_lt hq
            simp only
            omega
        · rw [if_neg hin]
      by_cases hcover : p < chunkEnd t cs tb sl s0
      · have hst := stripNonempty_of_pos h1 hcover h2 hns
        refine ⟨(pySlice t s0 (chunkEnd t cs tb sl s0), s0,
          chunkEnd t cs tb sl s0), ?_, h1, hcover⟩
        simp only [chunkGo, if_pos hlt, hp, he, if_pos hst]
        exact List.mem_cons_self _ _
      · obtain ⟨c, hc, hcp⟩ := ih (s0 + cs - ov) (by omega) p (by omega) h2 hns
        refine ⟨c, ?_, hcp⟩
        simp only [chunkGo, if_pos hlt, hp, he]
        by_cases hst : stripNonempty (pySlice t s0 (chunkEnd t cs tb sl s0)) = true
        · rw [if_pos hst]
          exact List.mem_cons_of_mem _ hc
        · rw [if_neg hst]
          exact hc
    · have hre := prot_some_lt hp
      by_cases hcover : p < rend
      · have hst := stripNonempty_of_pos h1 hcover h2 hns
        refine ⟨(pySlice t s0 rend, s0, rend), ?_, h1, hcover⟩
        simp only [chunkGo, if_pos hlt, hp, if_pos hst]
        exact List.mem_cons_self _ _
      · obtain ⟨c, hc, hcp⟩ := ih rend (by omega) p (by omega) h2 hns
        refine ⟨c, ?_, hcp⟩
        simp only [chunkGo, if_pos hlt, hp]
        by_cases hst : stripNonempty (pySlice t s0 rend) = true
        · rw [if_pos hst]
          exact List.mem_cons_of_mem _ hc
        · rw [if_neg hst]
          exact hc

/-! ### Equivalence of the computed regions with their specification -/

theorem find?_eq_head?_filter {α : Type} (p : α → Bool) (l : List α) :
    l.find? p = (l.filter p).head? := by
  induction l with
  | nil => simp
  | cons a rest ih =>
    by_cases h : p a = true
    · rw [List.find?_cons_of_pos _ h, List.filter_cons_of_pos h]
      rfl
    · rw [List.find?_cons_of_neg _ h, List.filter_cons_of_neg h]
      exact ih

theorem minByFst_of_lt {best : ℕ × ℕ} {rest : List (ℕ × ℕ)}
    (h : ∀ q ∈ rest, best.1 < q.1) : minByFst best rest = best := by
  induction rest with
  | nil => rfl
  | cons q rest' ih =>
    have hq : ¬ q.1 < best.1 := by
      have := h q (by simp)
      omega
    simp only [minByFst, if_neg hq]
    exact ih fun x hx => h x (List.mem_cons_of_mem _ hx)

theorem tableEnds_pairwise {t : List Char} :
    (tableEnds t).Pairwise fun a b => a.1 < b.1 :=
  finditerGo_pairwise (fun i e h => (endTableMatchAt_bounds h).1) _ _

theorem tableRanges_eq_spec (t : List Char) :
    tableRanges t = tableRangesSpec t := by
  unfold tableRanges tableRangesSpec
  refine List.filterMap_congr fun p _ => ?_
  rw [find?_eq_head?_filter]
  rcases hfil : (tableEnds t).filter (fun q => decide (p.1 < q.1)) with _ | ⟨h0, rest⟩
  · simp [hfil]
  · have hsorted : (h0 :: rest).Pairwise fun a b => a.1 < b.1 := by
      rw [← hfil]
      exact tableEnds_pairwise.filter _
    have hmin : minByFst h0 rest = h0 :=
      minByFst_of_lt fun q hq => (List.pairwise_cons.mp hsorted).1 q hq
    simp [hfil, hmin]

theorem slideRangesGo_eq_zip (len : ℕ) :
    ∀ L : List (ℕ × ℕ),
      slideRangesGo len L = (L.map Prod.fst).zip ((L.map Prod.fst).tail ++ [len]) := by
  intro L
  induction L with
  | nil => rfl
  | cons p rest ih =>
    cases rest with
    | nil => rfl
    | cons q rest' =>
      simp only [slideRangesGo, List.map_cons, List.tail_cons, List.zip_cons_cons,
        List.cons_append]
      rw [ih]
      simp

theorem slideRanges_eq_spec (t : List Char) :
    slideRanges t = slideRangesSpec t := by
  unfold slideRanges slideRangesSpec
  exact slideRangesGo_eq_zip _ _

theorem findRegionLoop_eq_find? (pos : ℕ) (L : List (ℕ × ℕ)) :
    findRegionLoop pos L =
      (L.find? fun r => decide (r.1 ≤ pos ∧ pos < r.2)).map Prod.snd := by
  induction L with
  | nil => rfl
  | cons r rest ih =>
    obtain ⟨a, b⟩ := r
    by_cases h : a ≤ pos ∧ pos < b
    · simp [findRegionLoop, List.find?_cons, h]
    · simp only [findRegionLoop, if_neg h, List.find?_cons]
      rw [ih]
      congr 1
      simp [h]

theorem is_in_protected_eq_spec (tb sl : List (ℕ × ℕ)) (pos : ℕ) :
    is_in_protected_region tb sl pos = isProtectedSpec tb sl pos := by
  unfold is_in_protected_region isProtectedSpec
  rw [findRegionLoop_eq_find?, findRegionLoop_eq_find?]
  rcases htb : tb.find? fun r => decide (r.1 ≤ pos ∧ pos < r.2) with _ | r
  · rcases hsl : sl.find? fun r => decide (r.1 ≤ pos ∧ pos < r.2) with _ | r
    · rw [htb, hsl]
      rfl
    · rw [htb, hsl]
      rfl
  · rw [htb]
    rfl

/-! ### Lemmas about the merge dictionary -/

theorem containsKey_iff_keyCnt {m : List (List Char × ℚ)} {k : List Char} :
    containsKey m k = true ↔ 0 < keyCnt m k := by
  induction m with
  | nil => simp [containsKey, keyCnt]
  | cons e rest ih =>
    by_cases he : e.1 = k
    · simp [containsKey, keyCnt, List.filter_cons, he]
    · simp only [containsKey, keyCnt, List.filter_cons, he, List.any_cons,
        decide_eq_true_eq, if_neg, Bool.or_eq_true]
      simpa [containsKey, keyCnt, he] using ih

theorem keyCnt_map_update {m : List (List Char × ℚ)} {k kk : List Char} {w : ℚ} :
    keyCnt (m.map fun e => if e.1 = k then (e.1, e.2 + w) else e) kk =
      keyCnt m kk := by
  induction m with
  | nil => rfl
  | cons e rest ih =>
    simp only [keyCnt] at ih ⊢
    simp only [List.map_cons, List.filter_cons]
    by_cases he : e.1 = k
    · rw [if_pos he]
      by_cases hek : e.1 = kk
      · simp [hek, ih]
      · simp [hek, ih]
    · rw [if_neg he]
      by_cases hek : e.1 = kk
      · simp [hek, ih]
      · simp [hek, ih]

theorem keyVal_map_update_self {m : List (List Char × ℚ)} {k : List Char} {w : ℚ} :
    keyVal (m.map fun e => if e.1 = k then (e.1, e.2 + w) else e) k =
      keyVal m k + (keyCnt m k : ℚ) * w := by
  induction m with
  | nil => simp [keyVal, keyCnt]
  | cons e rest ih =>
    simp only [keyVal, keyCnt] at ih ⊢
    simp only [List.map_cons]
    by_cases he : e.1 = k
    · rw [if_pos he, List.filter_cons_of_pos (by simp [he]),
        List.filter_cons_of_pos (by simpa using he)]
      simp only [List.map_cons, List.sum_cons, List.length_cons]
      rw [ih]
      push_cast
      ring
    · rw [if_neg he, List.filter_cons_of_neg (by simp [he]),
        List.filter_cons_of_neg (by simp [he])]
      exact ih

theorem keyVal_map_update_other {m : List (List Char × ℚ)} {k kk : List Char}
    {w : ℚ} (hkk : kk ≠ k) :
    keyVal (m.map fun e => if e.1 = k then (e.1, e.2 + w) else e) kk =
      keyVal m kk := by
  induction m with
  | nil => rfl
  | cons e rest ih =>
    simp only [keyVal] at ih ⊢
    simp only [List.map_cons, List.filter_cons]
    by_cases he : e.1 = k
    · have hek : ¬ e.1 = kk := by
        rw [he]
        exact fun h => hkk h.symm
      rw [if_pos he]
      simp [hek, ih]
    · rw [if_neg he]
      by_cases hek : e.1 = kk
      · simp [hek, ih]
      · simp [hek, ih]

theorem upsert_keyVal_self {m : List (List Char × ℚ)} {k : List Char} {w : ℚ}
    (hinv : keyCnt m k ≤ 1) : keyVal (upsert m k w) k = keyVal m k + w := by
  unfold upsert
  by_cases hck : containsKey m k = true
  · rw [if_pos hck, keyVal_map_update_self]
    have h1 : 0 < keyCnt m k := containsKey_iff_keyCnt.mp hck
    have : keyCnt m k = 1 := by omega
    rw [this]
    push_cast
    ring
  · rw [if_neg hck]
    simp [keyVal, List.filter_append]

theorem upsert_keyVal_other {m : List (List Char × ℚ)} {k kk : List Char}
    {w : ℚ} (hkk : kk ≠ k) : keyVal (upsert m k w) kk = keyVal m kk := by
  unfold upsert
  by_cases hck : containsKey m k = true
  · rw [if_pos hck, keyVal_map_update_other hkk]
  · rw [if_neg hck]
    have hk2 : ¬ k = kk := fun h => hkk h.symm
    simp [keyVal, List.filter_append, hk2]

theorem upsert_keyCnt_self {m : List (List Char × ℚ)} {k : List Char} {w : ℚ} :
    keyCnt (upsert m k w) k = max (keyCnt m k) 1 := by
  unfold upsert
  by_cases hck : containsKey m k = true
  · rw [if_pos hck, keyCnt_map_update]
    have := containsKey_iff_keyCnt.mp hck
    omega
  · rw [if_neg hck]
    have hz : keyCnt m k = 0 := by
      by_contra hc
      exact hck (containsKey_iff_keyCnt.mpr (by omega))
    unfold keyCnt at hz ⊢
    rw [List.filter_append, List.length_append, hz]
    simp

theorem upsert_keyCnt_other {m : List (List Char × ℚ)} {k kk : List Char}
    {w : ℚ} (hkk : kk ≠ k) : keyCnt (upsert m k w) kk = keyCnt m kk := by
  unfold upsert
  by_cases hck : containsKey m k = true
  · rw [if_pos hck, keyCnt_map_update]
  · rw [if_neg hck]
    have hk2 : ¬ k = kk := fun h => hkk h.symm
    simp [keyCnt, List.filter_append, hk2]

theorem upsert_inv {m : List (List Char × ℚ)} {k : List Char} {w : ℚ}
    (hm : MergeInv m) : MergeInv (upsert m k w) := by
  intro kk
  by_cases hkk : kk = k
  · subst hkk
    rw [upsert_keyCnt_self]
    have := hm kk
    omega
  · rw [upsert_keyCnt_other hkk]
    exact hm kk

theorem mergeAdd_facts (w : ℚ) (k : List Char) :
    ∀ (rs : List (SearchResult × ℚ)) (m : List (List Char × ℚ)), MergeInv m →
      MergeInv (mergeAdd w m rs) ∧
      keyVal (mergeAdd w m rs) k = keyVal m k + sumNorm rs k * w ∧
      keyCnt (mergeAdd w m rs) k = min 1 (keyCnt m k + cntText rs k) := by
  intro rs
  induction rs with
  | nil =>
    intro m hm
    refine ⟨hm, by simp [mergeAdd, sumNorm], ?_⟩
    have := hm k
    simp only [mergeAdd, List.foldl_nil, cntText, List.filter_nil,
      List.length_nil]
    omega
  | cons p rs' ih =>
    intro m hm
    have h1 : mergeAdd w m (p :: rs') =
        mergeAdd w (upsert m p.1.text (p.2 * w)) rs' := rfl
    have hinv' := @upsert_inv m p.1.text (p.2 * w) hm
    obtain ⟨ha, hb, hc⟩ := ih _ hinv'
    rw [h1]
    refine ⟨ha, ?_, ?_⟩
    · rw [hb]
      by_cases hpk : p.1.text = k
      · have hv : keyVal (upsert m p.1.text (p.2 * w)) k = keyVal m k + p.2 * w := by
          rw [hpk]
          exact upsert_keyVal_self (hm k)
        have hs : sumNorm (p :: rs') k = p.2 + sumNorm rs' k := by
          simp [sumNorm, List.filter_cons, hpk]
        rw [hv, hs]
        ring
      · have hv : keyVal (upsert m p.1.text (p.2 * w)) k = keyVal m k :=
          upsert_keyVal_other fun h => hpk h.symm
        have hs : sumNorm (p :: rs') k = sumNorm rs' k := by
          simp [sumNorm, List.filter_cons, hpk]
        rw [hv, hs]
    · rw [hc]
      by_cases hpk : p.1.text = k
      · have hv : keyCnt (upsert m p.1.text (p.2 * w)) k = max (keyCnt m k) 1 := by
          rw [hpk]
          exact upsert_keyCnt_self
        have hs : cntText (p :: rs') k = cntText rs' k + 1 := by
          simp [cntText, List.filter_cons, hpk]
        have := hm k
        rw [hv, hs]
        omega
      · have hv : keyCnt (upsert m p.1.text (p.2 * w)) k = keyCnt m k :=
          upsert_keyCnt_other fun h => hpk h.symm
        have hs : cntText (p :: rs') k = cntText rs' k := by
          simp [cntText, List.filter_cons, hpk]
        rw [hv, hs]

theorem mergeResults_facts (v b : List (SearchResult × ℚ)) (k : List Char) :
    MergeInv (mergeResults v b) ∧
    keyVal (mergeResults v b) k =
      sumNorm v k * (6 / 10) + sumNorm b k * (4 / 10) ∧
    keyCnt (mergeResults v b) k = min 1 (cntText v k + cntText b k) := by
  have hinv0 : MergeInv ([] : List (List Char × ℚ)) := fun kk => by
    simp [keyCnt]
  obtain ⟨h1, h2, h3⟩ := mergeAdd_facts (6 / 10) k v [] hinv0
  obtain ⟨g1, g2, g3⟩ := mergeAdd_facts (4 / 10) k b _ h1
  refine ⟨g1, ?_, ?_⟩
  · rw [mergeResults, g2, h2]
    simp [keyVal]
  · rw [mergeResults, g3, h3]
    have hz : keyCnt ([] : List (List Char × ℚ)) k = 0 := by simp [keyCnt]
    rw [hz]
    omega

/-! ### Lemmas about the final sort and clamp -/

theorem sortDesc_sorted (m : List (List Char × ℚ)) :
    (sortDesc m).Pairwise fun a b => b.2 ≤ a.2 := by
  have h := @List.sorted_mergeSort (List Char × ℚ)
    (fun a b => decide (b.2 ≤ a.2))
    (fun a b c hab hbc => by
      simp only [decide_eq_true_eq] at *
      exact le_trans hbc hab)
    (fun a b => by
      rcases le_total a.2 b.2 with h | h <;> simp [h])
    m
  exact h.imp fun hab => of_decide_eq_true hab

theorem sortDesc_mem {m : List (List Char × ℚ)} {e : List Char × ℚ} :
    e ∈ sortDesc m ↔ e ∈ m :=
  (List.mergeSort_perm m _).mem_iff

theorem sortDesc_length (m : List (List Char × ℚ)) :
    (sortDesc m).length = m.length :=
  (List.mergeSort_perm m _).length_eq

theorem clampBoost_mem {kb : ℚ} {m : List (List Char × ℚ)}
    {e : List Char × ℚ} (he : e ∈ clampBoost kb m) : 0 ≤ e.2 ∧ e.2 ≤ 1 := by
  obtain ⟨x, _, rfl⟩ := List.mem_map.mp he
  exact ⟨le_max_left _ _, max_le (by norm_num) (min_le_left _ _)⟩

/-! ### Monotonicity of the pipeline in the boost magnitudes -/

theorem forall₂_append {α β : Type} {R : α → β → Prop} {l₁ u₁ : List α}
    {l₂ u₂ : List β} (h : List.Forall₂ R l₁ l₂)
    (h2 : List.Forall₂ R u₁ u₂) : List.Forall₂ R (l₁ ++ u₁) (l₂ ++ u₂) := by
  induction h with
  | nil => exact h2
  | cons ha _ ih => exact List.Forall₂.cons ha ih

theorem forall₂_keys {m₁ m₂ : List (List Char × ℚ)}
    (h : List.Forall₂ EntryRel m₁ m₂) (k : List Char) :
    containsKey m₁ k = containsKey m₂ k := by
  induction h with
  | nil => rfl
  | cons ha _ ih =>
    simp only [containsKey, List.any_cons] at ih ⊢
    rw [ha.1, ih]

theorem forall₂_map_update {m₁ m₂ : List (List Char × ℚ)}
    (h : List.Forall₂ EntryRel m₁ m₂) (k : List Char) {w₁ w₂ : ℚ}
    (hw : w₁ ≤ w₂) :
    List.Forall₂ EntryRel
      (m₁.map fun e => if e.1 = k then (e.1, e.2 + w₁) else e)
      (m₂.map fun e => if e.1 = k then (e.1, e.2 + w₂) else e) := by
  induction h with
  | nil => exact List.Forall₂.nil
  | @cons a b l₁ l₂ ha _ ih =>
    simp only [List.map_cons]
    refine List.Forall₂.cons ?_ ih
    by_cases hk : a.1 = k
    · rw [if_pos hk, if_pos (ha.1 ▸ hk)]
      exact ⟨ha.1, add_le_add ha.2 hw⟩
    · rw [if_neg hk, if_neg (ha.1 ▸ hk)]
      exact ha

theorem upsert_forall₂ {m₁ m₂ : List (List Char × ℚ)}
    (h : List.Forall₂ EntryRel m₁ m₂) (k : List Char) {w₁ w₂ : ℚ}
    (hw : w₁ ≤ w₂) :
    List.Forall₂ EntryRel (upsert m₁ k w₁) (upsert m₂ k w₂) := by
  unfold upsert
  rw [forall₂_keys h k]
  by_cases hck : containsKey m₂ k = true
  · simp only [if_pos hck]
    exact forall₂_map_update h k hw
  · simp only [if_neg hck]
    exact forall₂_append h (List.Forall₂.cons ⟨rfl, hw⟩ List.Forall₂.nil)

theorem mergeAdd_forall₂ {w : ℚ} (hw : 0 ≤ w) :
    ∀ {rs₁ rs₂ : List (SearchResult × ℚ)}, List.Forall₂ ResRel rs₁ rs₂ →
      ∀ {m₁ m₂ : List (List Char × ℚ)}, List.Forall₂ EntryRel m₁ m₂ →
        List.Forall₂ EntryRel (mergeAdd w m₁ rs₁) (mergeAdd w m₂ rs₂) := by
  intro rs₁ rs₂ hrs
  induction hrs with
  | nil => intro m₁ m₂ hm; exact hm
  | @cons p₁ p₂ l₁ l₂ hp _ ih =>
    intro m₁ m₂ hm
    show List.Forall₂ EntryRel
      (mergeAdd w (upsert m₁ p₁.1.text (p₁.2 * w)) l₁)
      (mergeAdd w (upsert m₂ p₂.1.text (p₂.2 * w)) l₂)
    have hkey : p₁.1.text = p₂.1.text := by rw [hp.1]
    rw [hkey]
    exact ih (upsert_forall₂ hm _ (mul_le_mul_of_nonneg_right hp.2 hw))

theorem forall₂_resRel_refl (l : List (SearchResult × ℚ)) :
    List.Forall₂ ResRel l l :=
  List.forall₂_same.mpr fun p _ => ⟨rfl, le_refl _⟩

theorem boostResults_forall₂ (q : List Char) (rs : List (SearchResult × ℚ)) :
    List.Forall₂ ResRel (boostResults zeroBoosts q rs)
      (boostResults defaultBoosts q rs) := by
  unfold boostResults
  by_cases hl : isLocatorQuery q = true
  · simp only [if_pos hl]
    exact forall₂_resRel_refl rs
  · simp only [if_neg hl]
    by_cases hm : isMaterialsQuery q = true
    · simp only [if_pos hm]
      induction rs with
      | nil => exact List.Forall₂.nil
      | cons p rest ih =>
        simp only [List.map_cons]
        refine List.Forall₂.cons ?_ ih
        by_cases hInd : hasIndicator p.1.text = true
        · rw [if_pos hInd, if_pos hInd]
          refine ⟨rfl, min_le_min (le_refl 1) ?_⟩
          have : zeroBoosts.perResult ≤ defaultBoosts.perResult := by
            simp only [zeroBoosts, defaultBoosts]
            norm_num
          exact add_le_add (le_refl _) this
        · rw [if_neg hInd, if_neg hInd]
          exact ⟨rfl, le_refl _⟩
    · simp only [if_neg hm]
      exact forall₂_resRel_refl rs

theorem clampBoost_forall₂ {kb₁ kb₂ : ℚ} (hkb : kb₁ ≤ kb₂)
    {m₁ m₂ : List (List Char × ℚ)} (h : List.Forall₂ EntryRel m₁ m₂) :
    List.Forall₂ EntryRel (clampBoost kb₁ m₁) (clampBoost kb₂ m₂) := by
  induction h with
  | nil => exact List.Forall₂.nil
  | @cons a b l₁ l₂ ha _ ih =>
    simp only [clampBoost, List.map_cons]
    refine List.Forall₂.cons ⟨ha.1, ?_⟩ ih
    exact max_le_max (le_refl 0) (min_le_min (le_refl 1) (add_le_add ha.2 hkb))

theorem keywordBoost_zero (q : List Char) : keywordBoost zeroBoosts q = 0 := by
  unfold keywordBoost zeroBoosts
  split_ifs <;> rfl

theorem keywordBoost_nonneg (q : List Char) :
    0 ≤ keywordBoost defaultBoosts q := by
  unfold keywordBoost defaultBoosts
  split_ifs <;> norm_num

theorem confidenceOf_nonneg (l : List (List Char × ℚ)) : 0 ≤ confidenceOf l := by
  cases l with
  | nil => exact le_refl 0
  | cons h t => exact le_max_left _ _

theorem forall₂_mem_left {α β : Type} {R : α → β → Prop} {l₁ : List α}
    {l₂ : List β} (h : List.Forall₂ R l₁ l₂) {a : α} (ha : a ∈ l₁) :
    ∃ b ∈ l₂, R a b := by
  induction h with
  | nil => simp at ha
  | @cons x y t₁ t₂ hxy _ ih =>
    rcases List.mem_cons.mp ha with rfl | ha'
    · exact ⟨y, by simp, hxy⟩
    · obtain ⟨b, hb, hr⟩ := ih ha'
      exact ⟨b, List.mem_cons_of_mem _ hb, hr⟩

theorem conf_sortDesc_take_mono {m₁ m₂ : List (List Char × ℚ)}
    (h : List.Forall₂ EntryRel m₁ m₂) (k : ℕ) :
    confidenceOf ((sortDesc m₁).take k) ≤
      confidenceOf ((sortDesc m₂).take k) := by
  cases k with
  | zero => simp [confidenceOf]
  | succ k' =>
    rcases hm₁ : sortDesc m₁ with _ | ⟨h₁, t₁⟩
    · rw [List.take_nil]
      exact confidenceOf_nonneg _
    · rcases hm₂ : sortDesc m₂ with _ | ⟨h₂, t₂⟩
      · exfalso
        have l1 := sortDesc_length m₁
        have l2 := sortDesc_length m₂
        have hl := h.length_eq
        rw [hm₁] at l1
        rw [hm₂] at l2
        simp only [List.length_cons, List.length_nil] at l1 l2
        omega
      · have hc1 : confidenceOf (List.take (k' + 1) (h₁ :: t₁)) =
            max 0 (min 1 h₁.2) := rfl
        have hc2 : confidenceOf (List.take (k' + 1) (h₂ :: t₂)) =
            max 0 (min 1 h₂.2) := rfl
        rw [hc1, hc2]
        have hmem1 : h₁ ∈ m₁ :=
          sortDesc_mem.mp (hm₁ ▸ List.mem_cons_self h₁ t₁)
        obtain ⟨e₂, hmem2, hrel⟩ := forall₂_mem_left h hmem1
        have he2 : e₂ ∈ sortDesc m₂ := sortDesc_mem.mpr hmem2
        rw [hm₂] at he2
        have hle : e₂.2 ≤ h₂.2 := by
          rcases List.mem_cons.mp he2 with rfl | hmm
          · exact le_refl _
          · have hs := sortDesc_sorted m₂
            rw [hm₂] at hs
            exact (List.pairwise_cons.mp hs).1 _ hmm
        exact max_le_max (le_refl 0)
          (min_le_min (le_refl 1) (le_trans hrel.2 hle))

/-! ### Claim theorems for the chunker -/

/-- C1 (counterexample): the claimed atomicity fails on the code as stated.
For the text `"aaaaa[TABLE 1][END TABLE]bbbbbbbb"` with `chunk_size = 10` and
`overlap = 2` (a valid pair, `2 < 10`), the well-formed table region spans
offsets `[5, 25)`, yet the first emitted chunk spans `[0, 20)`: it intersects
the region without containing it (the `2 * chunk_size` cap binds), so a chunk
holds a proper leading part of the region. -/
theorem chunk_text_atomicity_counterexample :
    (2 : ℕ) < 10 ∧
    ((5, 25) : ℕ × ℕ) ∈ tableRanges "aaaaa[TABLE 1][END TABLE]bbbbbbbb".data ++
      slideRanges "aaaaa[TABLE 1][END TABLE]bbbbbbbb".data ∧
    ((pySlice "aaaaa[TABLE 1][END TABLE]bbbbbbbb".data 0 20, 0, 20) : PyChunk) ∈
      chunk_text "aaaaa[TABLE 1][END TABLE]bbbbbbbb".data 10 2 ∧
    ¬(((20 : ℕ) ≤ 5 ∨ (25 : ℕ) ≤ 0) ∨ ((0 : ℕ) ≤ 5 ∧ (25 : ℕ) ≤ 20)) := by
  refine ⟨by decide, by decide, by decide, ?_⟩
  decide

/-- C1 (amended): when the protected regions computed by the code are pairwise
disjoint, every emitted chunk `[s, e)` relates to every region `[a, b)` in
exactly one of four ways: it misses the region, wholly contains it, is a
region-tail chunk (it starts strictly inside the region and ends exactly at
the region's end — the cursor re-entered the region because the cursor always
advances by `chunk_size - overlap`, even after an extended chunk), or is a
cap-bound chunk that ends exactly at `s + chunk_size * 2` strictly inside the
region (the documented cap on region extension).  The last two cases are
genuine atomicity violations of the original claim. -/
theorem chunk_text_atomicity_amended (t : List Char) (cs ov : ℕ)
    (hdisj : RangesDisjoint (tableRanges t ++ slideRanges t))
    (a b : ℕ) (hR : (a, b) ∈ tableRanges t ++ slideRanges t)
    (c : PyChunk) (hc : c ∈ chunk_text t cs ov) :
    (c.2.2 ≤ a ∨ b ≤ c.2.1) ∨ (c.2.1 ≤ a ∧ b ≤ c.2.2) ∨
      (a < c.2.1 ∧ c.2.1 < b ∧ c.2.2 = b) ∨
      (c.2.1 < a ∧ a < c.2.2 ∧ c.2.2 = c.2.1 + cs * 2 ∧ c.2.2 < b) := by
  have hs := @chunkGo_shape t cs ov (tableRanges t) (slideRanges t) _ _ _ hc
  exact chunk_cases_of_shape allRanges_le_len hdisj hR hs.2

/-- C1 (witness): the amended theorem applied to the counterexample text; the
first chunk `[0, 20)` falls in the cap-bound case. -/
theorem chunk_text_atomicity_amended_witness :
    RangesDisjoint (tableRanges "aaaaa[TABLE 1][END TABLE]bbbbbbbb".data ++
      slideRanges "aaaaa[TABLE 1][END TABLE]bbbbbbbb".data) ∧
    (((20 : ℕ) ≤ 5 ∨ (25 : ℕ) ≤ 0) ∨ ((0 : ℕ) ≤ 5 ∧ (25 : ℕ) ≤ 20) ∨
      ((5 : ℕ) < 0 ∧ (0 : ℕ) < 25 ∧ (20 : ℕ) = 25) ∨
      ((0 : ℕ) < 5 ∧ (5 : ℕ) < 20 ∧ (20 : ℕ) = 0 + 10 * 2 ∧ (20 : ℕ) < 25)) :=
  ⟨by decide,
    chunk_text_atomicity_amended "aaaaa[TABLE 1][END TABLE]bbbbbbbb".data 10 2
      (by decide) 5 25 (by decide)
      (pySlice "aaaaa[TABLE 1][END TABLE]bbbbbbbb".data 0 20, 0, 20) (by decide)⟩

/-- C2 (counterexample): full-text coverage fails on the code as stated.  For
the text of ten spaces followed by `"x"` with `chunk_size = 10`,
`overlap = 2`, the candidate chunk `[0, 10)` is dropped because its text is
all whitespace, and the only emitted chunk spans `[8, 18)`: character
position `0` of the (non-empty) text lies in no emitted chunk's span. -/
theorem chunk_text_coverage_counterexample :
    (2 : ℕ) < 10 ∧ 0 < ("          x".data).length ∧
    chunk_text "          x".data 10 2 = [("  x".data, 8, 18)] ∧
    ¬((8 : ℕ) ≤ 0) := by
  refine ⟨by decide, by decide, ?_, by decide⟩
  decide

/-- C2 (amended): for `overlap < chunk_size`, every position of the text that
holds a non-whitespace character lies inside the span of at least one emitted
chunk, and each emitted chunk's text is exactly the slice of the document at
its span; positions inside all-whitespace stretches may remain uncovered,
because whitespace-only candidate chunks are dropped. -/
theorem chunk_text_coverage_amended (t : List Char) (cs ov : ℕ)
    (hov : ov < cs) (p : ℕ) (hp : p < t.length)
    (hw : pyIsSpace (t.getD p ' ') = false) :
    ∃ c ∈ chunk_text t cs ov, c.2.1 ≤ p ∧ p < c.2.2 ∧
      c.1 = pySlice t c.2.1 c.2.2 := by
  obtain ⟨c, hc, h1, h2⟩ :=
    @chunkGo_cover t cs ov (tableRanges t) (slideRanges t) hov
      (t.length + 1) 0 (by omega) p (by omega) hp hw
  exact ⟨c, hc, h1, h2, (chunkGo_shape _ _ _ hc).1.1⟩

/-- C2 (witness): the amended coverage theorem at text `"ab"`, position `0`. -/
theorem chunk_text_coverage_amended_witness :
    (2 : ℕ) < 10 ∧ (0 : ℕ) < ("ab".data).length ∧
    pyIsSpace (("ab".data).getD 0 ' ') = false ∧
    ∃ c ∈ chunk_text "ab".data 10 2, c.2.1 ≤ 0 ∧ 0 < c.2.2 ∧
      c.1 = pySlice "ab".data c.2.1 c.2.2 :=
  ⟨by decide, by decide, by decide,
    chunk_text_coverage_amended "ab".data 10 2 (by decide) 0 (by decide)
      (by decide)⟩

/-- C3 (confirmed): whenever an emitted ordinary chunk's proposed end
`cursor + chunk_size` lies strictly inside the text and inside a protected
region (whose reported end is `rend`), the emitted chunk's end equals
`min(rend, cursor + 2 * chunk_size)`. -/
theorem chunk_text_capped_extension (t : List Char) (cs ov : ℕ) (c : PyChunk)
    (hc : c ∈ chunk_text t cs ov)
    (hord : (is_in_protected_region (tableRanges t) (slideRanges t) c.2.1).1 = false)
    (hin : c.2.1 + cs < t.length) (rend : ℕ)
    (hprot : is_in_protected_region (tableRanges t) (slideRanges t) (c.2.1 + cs) =
      (true, rend)) :
    c.2.2 = min rend (c.2.1 + 2 * cs) := by
  rcases (chunkGo_shape _ _ _ hc).2 with hp | ⟨_, he⟩
  · rw [hp] at hord
    simp at hord
  · have he' : c.2.2 = min rend (c.2.1 + cs * 2) := by
      rw [he, chunkEnd, if_pos hin, hprot]
    omega

/-- C3 (witness): on the counterexample text, the first chunk starts at an
unprotected cursor `0`, its proposed end `10` lies inside the table region
ending at `25`, and its emitted end is `20 = min(25, 0 + 2*10)`. -/
theorem chunk_text_capped_extension_witness :
    (is_in_protected_region (tableRanges "aaaaa[TABLE 1][END TABLE]bbbbbbbb".data)
      (slideRanges "aaaaa[TABLE 1][END TABLE]bbbbbbbb".data) 0).1 = false ∧
    (0 : ℕ) + 10 < ("aaaaa[TABLE 1][END TABLE]bbbbbbbb".data).length ∧
    is_in_protected_region (tableRanges "aaaaa[TABLE 1][END TABLE]bbbbbbbb".data)
      (slideRanges "aaaaa[TABLE 1][END TABLE]bbbbbbbb".data) (0 + 10) = (true, 25) ∧
    (20 : ℕ) = min 25 (0 + 2 * 10) :=
  ⟨by decide, by decide, by decide,
    chunk_text_capped_extension "aaaaa[TABLE 1][END TABLE]bbbbbbbb".data 10 2
      (pySlice "aaaaa[TABLE 1][END TABLE]bbbbbbbb".data 0 20, 0, 20) (by decide)
      (by decide) (by decide) 25 (by decide)⟩

/-- C4 (confirmed): the regions computed inside `chunk_text` coincide with
their specification: each table region runs from an opening marker's start to
the nearest following closing marker's end (openers without a closer yield no
region and no error), each slide region runs from its marker's start to the
next marker's start or to end-of-text for the last, and the point query
checks table regions before slide regions, returning the containing region's
end offset on a hit. -/
theorem boundary_detection_matches_spec (t : List Char) :
    tableRanges t = tableRangesSpec t ∧
    slideRanges t = slideRangesSpec t ∧
    ∀ tb sl pos, is_in_protected_region tb sl pos = isProtectedSpec tb sl pos :=
  ⟨tableRanges_eq_spec t, slideRanges_eq_spec t,
    fun tb sl pos => is_in_protected_eq_spec tb sl pos⟩

/-! ### Claim theorems for the score fuser -/

/-- C5 (confirmed): in the merge of `hybrid_search`, a chunk text present in
either raw list yields exactly one merged entry, whose pre-boost hybrid score
is `0.6` times the summed dense normalized scores for that text plus `0.4`
times the summed lexical ones.  When the text occurs exactly once in each
list this is `0.6 * dense_norm + 0.4 * lex_norm`; when it occurs in only one
list, only that list's weighted term remains.  The key is the text content
(`sumNorm`/`cntText` inspect only `.text`, never the `meta` identifier). -/
theorem hybrid_merge_dedup (v b : List (SearchResult × ℚ)) (k : List Char)
    (hpres : 1 ≤ cntText v k + cntText b k) :
    keyCnt (mergeResults v b) k = 1 ∧
    keyVal (mergeResults v b) k =
      sumNorm v k * (6 / 10) + sumNorm b k * (4 / 10) ∧
    (∀ vn, (v.filter fun p => p.1.text = k).map Prod.snd = [vn] →
      ∀ bn, (b.filter fun p => p.1.text = k).map Prod.snd = [bn] →
        keyVal (mergeResults v b) k = vn * (6 / 10) + bn * (4 / 10)) ∧
    (∀ vn, (v.filter fun p => p.1.text = k).map Prod.snd = [vn] →
      (b.filter fun p => p.1.text = k) = [] →
        keyVal (mergeResults v b) k = vn * (6 / 10)) := by
  obtain ⟨_, h2, h3⟩ := mergeResults_facts v b k
  refine ⟨by omega, h2, ?_, ?_⟩
  · intro vn hv bn hb
    rw [h2]
    unfold sumNorm
    rw [hv, hb]
    simp
  · intro vn hv hb
    rw [h2]
    unfold sumNorm
    rw [hv, hb]
    simp

/-- C5 (witness): the same text `"ca"` carried by two results with different
identifiers (`meta 0` dense, `meta 7` lexical) collapses into one entry with
score `0.8 * 0.6 + 0.5 * 0.4`. -/
theorem hybrid_merge_dedup_witness :
    1 ≤ cntText [(⟨"ca".data, 0, 9 / 10⟩, (8 / 10 : ℚ))] "ca".data +
      cntText [(⟨"ca".data, 7, 5⟩, (1 / 2 : ℚ))] "ca".data ∧
    keyCnt (mergeResults [(⟨"ca".data, 0, 9 / 10⟩, (8 / 10 : ℚ))]
      [(⟨"ca".data, 7, 5⟩, (1 / 2 : ℚ))]) "ca".data = 1 ∧
    keyVal (mergeResults [(⟨"ca".data, 0, 9 / 10⟩, (8 / 10 : ℚ))]
      [(⟨"ca".data, 7, 5⟩, (1 / 2 : ℚ))]) "ca".data =
      (8 / 10) * (6 / 10) + (1 / 2) * (4 / 10) :=
  ⟨by decide,
    (hybrid_merge_dedup [(⟨"ca".data, 0, 9 / 10⟩, (8 / 10 : ℚ))]
      [(⟨"ca".data, 7, 5⟩, (1 / 2 : ℚ))] "ca".data (by decide)).1,
    (hybrid_merge_dedup [(⟨"ca".data, 0, 9 / 10⟩, (8 / 10 : ℚ))]
      [(⟨"ca".data, 7, 5⟩, (1 / 2 : ℚ))] "ca".data (by decide)).2.2.1
      (8 / 10) (by rfl) (1 / 2) (by rfl)⟩

/-- C6 (confirmed): on a non-empty score list, `_normalize_scores` takes the
degenerate branch (every score becomes `1/2`) exactly when all scores are
equal or the maximum is `0`; otherwise it maps every score to
`(score - min) / (max - min)`, and in that branch the divisor is non-zero, so
the division-by-zero case is unreachable. -/
theorem normalize_scores_correct (l : List ℚ) (h : l ≠ []) :
    ((pyMax l = pyMin l ∨ pyMax l = 0) →
      normalize_scores l = l.map fun _ => (1 : ℚ) / 2) ∧
    (¬(pyMax l = pyMin l ∨ pyMax l = 0) →
      pyMax l - pyMin l ≠ 0 ∧
      normalize_scores l = l.map fun s => (s - pyMin l) / (pyMax l - pyMin l)) := by
  match l, h with
  | a :: rest, _ =>
    constructor
    · intro hdeg
      simp only [normalize_scores, if_pos hdeg]
    · intro hdeg
      refine ⟨fun hz => hdeg (Or.inl (sub_eq_zero.mp hz)), ?_⟩
      simp only [normalize_scores, if_neg hdeg]

/-- C6 (witness): on `[1, 3]` the non-degenerate branch applies with divisor
`3 - 1 ≠ 0`. -/
theorem normalize_scores_correct_witness :
    ¬(pyMax [(1 : ℚ), 3] = pyMin [(1 : ℚ), 3] ∨ pyMax [(1 : ℚ), 3] = 0) ∧
    (pyMax [(1 : ℚ), 3] - pyMin [(1 : ℚ), 3] ≠ 0 ∧
      normalize_scores [(1 : ℚ), 3] = [(1 : ℚ), 3].map fun s =>
        (s - pyMin [(1 : ℚ), 3]) / (pyMax [(1 : ℚ), 3] - pyMin [(1 : ℚ), 3])) :=
  ⟨by decide,
    (normalize_scores_correct [(1 : ℚ), 3] (by decide)).2 (by decide)⟩

/-- C7 (counterexample): the claimed unconditional `+0.25` per-result boost
fails on the code.  For the materials query `"required book"` (not a locator
query), a result whose text `"the book"` contains an indicator term and whose
normalized score is `1` keeps score `1` after the boost pass, because the
source computes `min(1.0, normalized + 0.25)`; `1 ≠ 1 + 0.25`. -/
theorem hybrid_boost_counterexample :
    isLocatorQuery "required book".data = false ∧
    isMaterialsQuery "required book".data = true ∧
    hasIndicator "the book".data = true ∧
    boostResults defaultBoosts "required book".data
      [(⟨"the book".data, 0, 2⟩, (1 : ℚ))] =
      [(⟨"the book".data, 0, 2⟩, (1 : ℚ))] ∧
    (1 : ℚ) ≠ 1 + 25 / 100 := by
  have h1 : isLocatorQuery "required book".data = false := by decide
  have h2 : isMaterialsQuery "required book".data = true := by decide
  have h3 : hasIndicator "the book".data = true := by decide
  refine ⟨h1, h2, h3, ?_, by norm_num⟩
  simp only [boostResults, h1, h2, Bool.false_eq_true, if_false, if_true,
    List.map_cons, List.map_nil, defaultBoosts, h3]
  norm_num

/-- C7 (amended): query-pattern boosting policy with the per-result boost
capped at `1`.  If the trimmed lowercased query starts with a locator
interrogative, the flat boost is `0.15` and no per-result boost is applied;
otherwise, if it contains a materials keyword, the flat boost is `0.20` and
each raw-list result whose text contains an indicator term has its normalized
score replaced by `min(1, score + 0.25)` before the 0.6/0.4 combination;
otherwise no boost at all.  At most one family applies, locator first. -/
theorem hybrid_boost_policy (q : List Char) (rs : List (SearchResult × ℚ)) :
    (isLocatorQuery q = true →
      keywordBoost defaultBoosts q = 15 / 100 ∧
      boostResults defaultBoosts q rs = rs) ∧
    (isLocatorQuery q = false → isMaterialsQuery q = true →
      keywordBoost defaultBoosts q = 20 / 100 ∧
      boostResults defaultBoosts q rs = rs.map fun p =>
        if hasIndicator p.1.text then (p.1, min 1 (p.2 + 25 / 100)) else p) ∧
    (isLocatorQuery q = false → isMaterialsQuery q = false →
      keywordBoost defaultBoosts q = 0 ∧
      boostResults defaultBoosts q rs = rs) := by
  refine ⟨fun hl => ?_, fun hl hm => ?_, fun hl hm => ?_⟩
  · simp [keywordBoost, boostResults, defaultBoosts, hl]
  · simp [keywordBoost, boostResults, defaultBoosts, hl, hm]
  · simp [keywordBoost, boostResults, defaultBoosts, hl, hm]

/-- C7 (witness): the materials branch of the policy applied to the query
`"required book"` and one raw result. -/
theorem hybrid_boost_policy_witness :
    keywordBoost defaultBoosts "required book".data = 20 / 100 ∧
    boostResults defaultBoosts "required book".data
      [(⟨"the book".data, 0, 2⟩, (1 : ℚ))] =
      [(⟨"the book".data, 0, 2⟩, (1 : ℚ))].map fun p =>
        if hasIndicator p.1.text then (p.1, min 1 (p.2 + 25 / 100)) else p :=
  (hybrid_boost_policy "required book".data
    [(⟨"the book".data, 0, 2⟩, (1 : ℚ))]).2.1 (by decide) (by decide)

/-- C8 (confirmed): `retrieve(query, k)` asks both search oracles for `2k`
candidates, returns at most `k` fused results sorted by non-increasing hybrid
score with every score clamped into `[0, 1]`, and reports confidence `0` on
an empty result list and `max(0, min(1, top_score))` otherwise. -/
theorem retrieve_contract (q : List Char) (ds ls : ℕ → List SearchResult)
    (k : ℕ) :
    retrieve q ds ls k =
      (hybrid_search q (ds (k * 2)) (ls (k * 2)) k,
        confidenceOf (hybrid_search q (ds (k * 2)) (ls (k * 2)) k)) ∧
    (retrieve q ds ls k).1.length ≤ k ∧
    (retrieve q ds ls k).1.Pairwise (fun a b => b.2 ≤ a.2) ∧
    (∀ r ∈ (retrieve q ds ls k).1, 0 ≤ r.2 ∧ r.2 ≤ 1) ∧
    ((retrieve q ds ls k).1 = [] → (retrieve q ds ls k).2 = 0) ∧
    (∀ h rest, (retrieve q ds ls k).1 = h :: rest →
      (retrieve q ds ls k).2 = max 0 (min 1 h.2)) := by
  have hre : (retrieve q ds ls k).1 =
      (sortDesc (clampBoost (keywordBoost defaultBoosts q)
        (mergeResults (boostResults defaultBoosts q (withNorm (ds (k * 2))))
          (boostResults defaultBoosts q (withNorm (ls (k * 2))))))).take k := rfl
  have hconf : (retrieve q ds ls k).2 =
      confidenceOf ((retrieve q ds ls k).1) := rfl
  refine ⟨rfl, ?_, ?_, ?_, ?_, ?_⟩
  · rw [hre]
    exact List.length_take_le _ _
  · rw [hre]
    exact (sortDesc_sorted _).sublist (List.take_sublist _ _)
  · intro r hr
    rw [hre] at hr
    exact clampBoost_mem (sortDesc_mem.mp (List.mem_of_mem_take hr))
  · intro h0
    rw [hconf, h0]
    rfl
  · intro h rest hh
    rw [hconf, hh]
    rfl

/-- C8 (witness): with both search oracles returning nothing (empty corpus),
`retrieve` returns the empty list and, by the contract's empty-case clause,
confidence `0`. -/
theorem retrieve_contract_witness :
    (retrieve "what".data (fun _ => []) (fun _ => []) 3).1 = [] ∧
    (retrieve "what".data (fun _ => []) (fun _ => []) 3).2 = 0 := by
  have hb : boostResults defaultBoosts "what".data
      (withNorm ([] : List SearchResult)) = [] := by
    unfold boostResults
    split_ifs <;> rfl
  have h0 : (retrieve "what".data (fun _ => []) (fun _ => []) 3).1 = [] := by
    show (sortDesc (clampBoost (keywordBoost defaultBoosts "what".data)
      (mergeResults (boostResults defaultBoosts "what".data (withNorm []))
        (boostResults defaultBoosts "what".data (withNorm []))))).take 3 = []
    rw [hb]
    have hm : mergeResults [] [] = ([] : List (List Char × ℚ)) := rfl
    rw [hm]
    have hc : clampBoost (keywordBoost defaultBoosts "what".data) [] =
        ([] : List (List Char × ℚ)) := rfl
    rw [hc]
    have hs : sortDesc [] = ([] : List (List Char × ℚ)) := by
      simp [sortDesc]
    rw [hs]
    rfl
  exact ⟨h0,
    (retrieve_contract "what".data (fun _ => []) (fun _ => []) 3).2.2.2.2.1 h0⟩

/-- C9 (confirmed): for a fixed query and fixed raw dense/lexical result
lists, the confidence computed by the fusion pipeline with the source's boost
magnitudes (`0.15`, `0.20`, `0.25`) is at least the confidence computed by
the same pipeline with every boost magnitude set to zero — boosts only add
before clamping, never subtract. -/
theorem confidence_monotone_under_boosts (q : List Char)
    (vres bres : List SearchResult) (k : ℕ) :
    confidenceOf (hybrid_fuse zeroBoosts q vres bres k) ≤
      confidenceOf (hybrid_fuse defaultBoosts q vres bres k) := by
  have e1 : hybrid_fuse zeroBoosts q vres bres k =
      (sortDesc (clampBoost (keywordBoost zeroBoosts q)
        (mergeResults (boostResults zeroBoosts q (withNorm vres))
          (boostResults zeroBoosts q (withNorm bres))))).take k := rfl
  have e2 : hybrid_fuse defaultBoosts q vres bres k =
      (sortDesc (clampBoost (keywordBoost defaultBoosts q)
        (mergeResults (boostResults defaultBoosts q (withNorm vres))
          (boostResults defaultBoosts q (withNorm bres))))).take k := rfl
  rw [e1, e2]
  refine conf_sortDesc_take_mono (clampBoost_forall₂ ?_ ?_) k
  · rw [keywordBoost_zero]
    exact keywordBoost_nonneg q
  · exact mergeAdd_forall₂ (by norm_num)
      (boostResults_forall₂ q (withNorm bres))
      (mergeAdd_forall₂ (by norm_num)
        (boostResults_forall₂ q (withNorm vres)) List.Forall₂.nil)

/-- C10 (confirmed): `bm25_search` keeps only documents with strictly
positive BM25 score: every returned result has score `> 0`; if no score in
the vector is positive (as for a query sharing no token with any document),
the result list is empty; and the list never exceeds `top_k` entries, so it
may hold fewer than `top_k` even over a large corpus. -/
theorem bm25_search_positive (scores : List ℚ) (docs : List (List Char))
    (top_k : ℕ) :
    (∀ r ∈ bm25_search scores docs top_k, 0 < r.2) ∧
    ((∀ s ∈ scores, s ≤ 0) → bm25_search scores docs top_k = []) ∧
    (bm25_search scores docs top_k).length ≤ top_k := by
  refine ⟨?_, ?_, ?_⟩
  · intro r hr
    obtain ⟨idx, _, hidx⟩ := List.mem_filterMap.mp hr
    by_cases hp : 0 < scores.getD idx 0
    · rw [if_pos hp] at hidx
      obtain ⟨rfl⟩ := Option.some.injEq .. ▸ hidx
      exact hp
    · rw [if_neg hp] at hidx
      simp at hidx
  · intro hall
    refine List.filterMap_eq_nil.mpr fun idx _ => ?_
    have hle : scores.getD idx 0 ≤ 0 := by
      by_cases hl : idx < scores.length
      · rw [List.getD_eq_getElem _ _ hl]
        exact hall _ (List.getElem_mem hl)
      · rw [List.getD_eq_default _ _ (by omega)]
    rw [if_neg (not_lt.mpr hle)]
  · calc (bm25_search scores docs top_k).length
        ≤ ((argsortDesc scores).take top_k).length :=
          List.length_filterMap_le _ _
      _ ≤ top_k := List.length_take_le _ _

/-- C10 (witness): with score vector `[5, 0, -1]` over a three-document
corpus and `top_k = 3`, only the positive-score document is returned (one
result out of three requested); with all-nonpositive scores `[0, -1]` the
result list is empty. -/
theorem bm25_search_positive_witness :
    (∀ r ∈ bm25_search [(5 : ℚ), 0, -1]
      ["d0".data, "d1".data, "d2".data] 3, 0 < r.2) ∧
    ((∀ s ∈ [(0 : ℚ), -1], s ≤ 0) ∧
      bm25_search [(0 : ℚ), -1] ["d0".data, "d1".data] 2 = []) :=
  ⟨(bm25_search_positive [(5 : ℚ), 0, -1]
      ["d0".data, "d1".data, "d2".data] 3).1,
    by norm_num,
    (bm25_search_positive [(0 : ℚ), -1] ["d0".data, "d1".data] 2).2.1
      (by norm_num)⟩

end CourseCompass
